import Mathlib

/-!
Verification of the dense column-major matrix layer of the Dynare repository
(the `Matrix.hh` part of `parser.src/include/DynareBison.hh`): the owning
`Matrix` class, the `MatrixView` / `MatrixConstView` classes, and the generic
algorithms of namespace `mat` (column/row copies, transposition, element-wise
arithmetic, norms, tolerance comparison, and the index-vector reordering and
assignment family).

The C++ data space (a `double*` buffer in column-major order) is embedded as a
total function `Nat → ℚ`; every concrete matrix object is a window
`(off, rows, cols, ld)` into such a buffer, matching the three C++ classes,
whose element access is uniformly `data[i + j*ld]` (for the owning `Matrix`,
`getLd()` returns `rows`, so the single embedding covers all three classes).
`double` scalars are embedded as exact rationals: the operations verified here
only move, negate, compare and take absolute values of scalars.

Functions guarded by `assert` in the source are embedded with result type
`Buf ⊕ Buf`: `Sum.inl` carries the destination buffer as it stands when a
failing assertion aborts the call, `Sum.inr` the destination buffer after a
successful call.  The guards appear in the order the asserts appear in the
source.
-/

namespace Dynare

/-- 64-bit float scalars, embedded as exact rationals. -/
abbrev Scalar := ℚ

/-- A column-major data space (`double *` in the source). -/
def Buf : Type := Nat → Scalar

/-- Writing one cell of a data space. -/
def Buf.update (b : Buf) (k : Nat) (v : Scalar) : Buf :=
  fun n => if n = k then v else b n

/-- A matrix-concept object: a window into a data space.  `off` is the
distance of `getData()` from the start of the buffer; `rows`, `cols`, `ld`
are `getRows()`, `getCols()`, `getLd()`. -/
structure MatView where
  off : Nat
  rows : Nat
  cols : Nat
  ld : Nat
deriving DecidableEq, Repr

/-- An owning `Matrix(rows, cols)`: data at the start of its own buffer,
`getLd() == rows` (no padding between columns). -/
def matrixOf (rows cols : Nat) : MatView :=
  ⟨0, rows, cols, rows⟩

/-- Element access `M(i,j) = data[i + j*ld]` (for `Matrix`, `ld = rows`). -/
def elemOf (buf : Buf) (M : MatView) (i j : Nat) : Scalar :=
  buf (M.off + (i + j * M.ld))

/-- The `MatrixView(arg, row_offset, col_offset, rows_arg, cols_arg)` and
`MatrixConstView(arg, ...)` constructors: data pointer
`arg.getData() + row_offset + col_offset*arg.getLd()`, `ld` copied from the
parent. -/
def subView (arg : MatView) (row_offset col_offset rows_arg cols_arg : Nat) : MatView :=
  ⟨arg.off + row_offset + col_offset * arg.ld, rows_arg, cols_arg, arg.ld⟩

/-- The assertion checked by the view constructors. -/
def subViewOK (arg : MatView) (row_offset col_offset rows_arg cols_arg : Nat) : Prop :=
  row_offset < arg.rows ∧ row_offset + rows_arg ≤ arg.rows
    ∧ col_offset < arg.cols ∧ col_offset + cols_arg ≤ arg.cols

instance (arg : MatView) (a b c d : Nat) : Decidable (subViewOK arg a b c d) := by
  unfold subViewOK; infer_instance

/-- A list of writes `(offset, value)` applied left to right, the order in
which the source loops emit them. -/
def applyWrites (buf : Buf) (ws : List (Nat × Scalar)) : Buf :=
  ws.foldl (fun b w => b.update w.1 w.2) buf

/-- The number of iterations of the column loops
`for (p = data; p < data + cols*ld; p += ld)` of the source: `cols`
iterations whenever `ld > 0`, none when `ld = 0` (then the bound equals the
start). -/
def colIters (m : MatView) : Nat :=
  if m.ld = 0 then 0 else m.cols

/-- The six, four, ... elements of a matrix-concept object enumerated in
column-major order, read through `operator()(i,j)`. -/
def colMajorElems (buf : Buf) (m : MatView) : List Scalar :=
  (List.range m.cols).flatMap fun j => (List.range m.rows).map fun i => elemOf buf m i j

/-- The elements enumerated in row-major order, read through
`operator()(i,j)`. -/
def rowMajorElems (buf : Buf) (m : MatView) : List Scalar :=
  (List.range m.rows).flatMap fun i => (List.range m.cols).map fun j => elemOf buf m i j

/-- A concrete data space holding value `n` at offset `n`: the 4×4 matrix
with `M(i,j) = i + 4j` of the spec, stored column-major. -/
def bufNat : Buf := fun n => (n : ℚ)

/-- An all-zero data space. -/
def bufZero : Buf := fun _ => 0

/-! ### The operations of the matrix layer -/

/-- `MatrixView::setAll(val)`: `for (p = data; p < data + cols*ld; p += ld)
std::fill_n(p, rows, val)` — fills the `rows` in-view elements of each column,
stepping by `ld` between columns. -/
def setAllWrites (m : MatView) (v : Scalar) : List (Nat × Scalar) :=
  (List.range (colIters m)).flatMap fun j =>
    (List.range m.rows).map fun i => (m.off + j * m.ld + i, v)

/-- The buffer after `MatrixView::setAll(val)`. -/
def setAllView (buf : Buf) (m : MatView) (v : Scalar) : Buf :=
  applyWrites buf (setAllWrites m v)

/-- The writes of the assignment operator `operator=(const Mat &arg)`:
`for (j = 0; j < cols; j++) memcpy(data + j*ld, arg.getData() + j*arg.getLd(),
rows*sizeof(double))`.  For the owning `Matrix` the destination stride written
in the source is `rows`, which equals its `getLd()`; for `MatrixView` it is
`ld`; `dest.ld` covers both. -/
def assignWrites (dest : MatView) (sbuf : Buf) (src : MatView) : List (Nat × Scalar) :=
  (List.range dest.cols).flatMap fun j =>
    (List.range dest.rows).map fun i =>
      (dest.off + j * dest.ld + i, sbuf (src.off + j * src.ld + i))

/-- `Matrix::operator=` / `MatrixView::operator=`: asserts
`rows == arg.getRows() && cols == arg.getCols()`, then copies column by
column. -/
def assignMC (dbuf : Buf) (dest : MatView) (sbuf : Buf) (src : MatView) : Buf ⊕ Buf :=
  if dest.rows = src.rows ∧ dest.cols = src.cols then
    .inr (applyWrites dbuf (assignWrites dest sbuf src))
  else .inl dbuf

/-- `mat::col_copy(src, col_src, dest, col_dest)`: one `memcpy` of
`src.getRows()` elements from source column `col_src` to destination column
`col_dest` (its assert is implied by the callers verified here). -/
def colCopyWrites (sbuf : Buf) (src : MatView) (col_src : Nat)
    (dest : MatView) (col_dest : Nat) : List (Nat × Scalar) :=
  (List.range src.rows).map fun i =>
    (dest.off + col_dest * dest.ld + i, sbuf (src.off + col_src * src.ld + i))

/-- Iteration count of the `mat::row_copy` loop
`p1 = src.getData() + row_src; while (p1 < src.getData() + cols*ld) p1 += ld`:
the number of `k` with `row_src + k*ld < cols*ld`. -/
def rowCopyIters (src : MatView) (row_src : Nat) : Nat :=
  if src.ld = 0 then 0 else (src.cols * src.ld - row_src + src.ld - 1) / src.ld

/-- `mat::row_copy(src, row_src, dest, row_dest)`: strided element copies,
source stepping by `src.getLd()`, destination by `dest.getLd()`. -/
def rowCopyWrites (sbuf : Buf) (src : MatView) (row_src : Nat)
    (dest : MatView) (row_dest : Nat) : List (Nat × Scalar) :=
  (List.range (rowCopyIters src row_src)).map fun k =>
    (dest.off + row_dest + k * dest.ld, sbuf (src.off + row_src + k * src.ld))

/-- The `mat::nullVec` convention: a zero-sized index vector stands for `":"`;
the source expands it to `0 .. count-1` of its own side (`tmpvp...[i] = i`;
NB the source only `reserve`s the temporary vector and then writes through
`operator[]`, relying on the reserved capacity — the embedding takes the
intended `0 .. count-1` contents). -/
def expand (v : List Nat) (count : Nat) : List Nat :=
  if v = [] then List.range count else v

/-- `mat::reorderColumnsByVectors(a, vToCols, b, vcols)`: guards in source
order — `assert(b.getRows() == a.getRows())`; if both index lists are empty,
`a = b`; otherwise each non-empty list is checked element-wise against its own
column count and its length against the same bound, then
`assert(toncols == ncols && ncols > 0)`, then
`for (j = 0; j < ncols; ++j) col_copy(b, vpCols[j], a, vpToCols[j])`. -/
def reorderColumnsByVectors (abuf : Buf) (a : MatView) (vToCols : List Nat)
    (bbuf : Buf) (b : MatView) (vcols : List Nat) : Buf ⊕ Buf :=
  if ¬ (b.rows = a.rows) then .inl abuf
  else if vToCols = [] ∧ vcols = [] then assignMC abuf a bbuf b
  else if ¬ (vToCols.all fun c => c < a.cols) then .inl abuf
  else if ¬ ((expand vToCols a.cols).length ≤ a.cols) then .inl abuf
  else if ¬ (vcols.all fun c => c < b.cols) then .inl abuf
  else if ¬ ((expand vcols b.cols).length ≤ b.cols) then .inl abuf
  else if ¬ ((expand vToCols a.cols).length = (expand vcols b.cols).length
             ∧ 0 < (expand vcols b.cols).length) then .inl abuf
  else .inr (applyWrites abuf ((List.range (expand vcols b.cols).length).flatMap fun j =>
    colCopyWrites bbuf b ((expand vcols b.cols).getD j 0) a ((expand vToCols a.cols).getD j 0)))

/-- `mat::reorderRowsByVectors(a, vToRows, b, vrows)`: the row-axis mirror —
`assert(b.getCols() == a.getCols())`, empty lists expand to all rows, same
cardinality checks, then `row_copy(b, vpRows[i], a, vpToRows[i])`. -/
def reorderRowsByVectors (abuf : Buf) (a : MatView) (vToRows : List Nat)
    (bbuf : Buf) (b : MatView) (vrows : List Nat) : Buf ⊕ Buf :=
  if ¬ (b.cols = a.cols) then .inl abuf
  else if vToRows = [] ∧ vrows = [] then assignMC abuf a bbuf b
  else if ¬ (vToRows.all fun r => r < a.rows) then .inl abuf
  else if ¬ ((expand vToRows a.rows).length ≤ a.rows) then .inl abuf
  else if ¬ (vrows.all fun r => r < b.rows) then .inl abuf
  else if ¬ ((expand vrows b.rows).length ≤ b.rows) then .inl abuf
  else if ¬ ((expand vToRows a.rows).length = (expand vrows b.rows).length
             ∧ 0 < (expand vrows b.rows).length) then .inl abuf
  else .inr (applyWrites abuf ((List.range (expand vrows b.rows).length).flatMap fun i =>
    rowCopyWrites bbuf b ((expand vrows b.rows).getD i 0) a ((expand vToRows a.rows).getD i 0)))

/-- `mat::assignByVectors(a, vToRows, vToCols, b, vrows, vcols)`: fast paths
(full copy, column-only, row-only dispatch), then the general per-element
gather/scatter `a(vpToRows[i], vpToCols[j]) = b(vpRows[i], vpCols[j])` after
the four expansion/cardinality checks and
`assert(tonrows == nrows && toncols == ncols && nrows*ncols > 0)`. -/
def assignByVectors (abuf : Buf) (a : MatView) (vToRows vToCols : List Nat)
    (bbuf : Buf) (b : MatView) (vrows vcols : List Nat) : Buf ⊕ Buf :=
  if vToRows = [] ∧ vToCols = [] ∧ vrows = [] ∧ vcols = [] then assignMC abuf a bbuf b
  else if vToRows = [] ∧ vrows = [] then reorderColumnsByVectors abuf a vToCols bbuf b vcols
  else if vToCols = [] ∧ vcols = [] then reorderRowsByVectors abuf a vToRows bbuf b vrows
  else if ¬ (vToRows.all fun r => r < a.rows) then .inl abuf
  else if ¬ ((expand vToRows a.rows).length ≤ a.rows) then .inl abuf
  else if ¬ (vToCols.all fun c => c < a.cols) then .inl abuf
  else if ¬ ((expand vToCols a.cols).length ≤ a.cols) then .inl abuf
  else if ¬ (vrows.all fun r => r < b.rows) then .inl abuf
  else if ¬ ((expand vrows b.rows).length ≤ b.rows) then .inl abuf
  else if ¬ (vcols.all fun c => c < b.cols) then .inl abuf
  else if ¬ ((expand vcols b.cols).length ≤ b.cols) then .inl abuf
  else if ¬ ((expand vToRows a.rows).length = (expand vrows b.rows).length
             ∧ (expand vToCols a.cols).length = (expand vcols b.cols).length
             ∧ 0 < (expand vrows b.rows).length * (expand vcols b.cols).length) then .inl abuf
  else .inr (applyWrites abuf ((List.range (expand vrows b.rows).length).flatMap fun i =>
    (List.range (expand vcols b.cols).length).map fun j =>
      (a.off + ((expand vToRows a.rows).getD i 0 + ((expand vToCols a.cols).getD j 0) * a.ld),
       bbuf (b.off + ((expand vrows b.rows).getD i 0 + ((expand vcols b.cols).getD j 0) * b.ld)))))

/-- `std::swap(M(i,j), M(j,i))` on the data space: exchanges cells `k` and
`l`. -/
def swapAt (b : Buf) (k l : Nat) : Buf :=
  fun n => if n = k then b l else if n = l then b k else b n

/-- The index pairs `(i, j)` with `j < i < n` visited by the in-place
transpose loops, in source order. -/
def transposePairs (n : Nat) : List (Nat × Nat) :=
  (List.range n).flatMap fun i => (List.range i).map fun j => (i, j)

/-- `mat::transpose(M)` in place: `assert(M.getRows() == M.getCols())`, then
`std::swap(M(i,j), M(j,i))` for all `j < i`. -/
def transposeIP (buf : Buf) (m : MatView) : Buf ⊕ Buf :=
  if m.rows = m.cols then
    .inr ((transposePairs m.rows).foldl
      (fun b p => swapAt b (m.off + (p.1 + p.2 * m.ld)) (m.off + (p.2 + p.1 * m.ld))) buf)
  else .inl buf

/-- `mat::add(m1, m2)`: asserts equal dimensions, then `*pp1++ += *pp2++`
over the `m1.getRows()` in-view elements of each column, both pointers
stepping by their own leading dimension between columns (`m1` and `m2` are
taken over separate data spaces, as in every call site of this layer). -/
def addMM (buf1 : Buf) (m1 : MatView) (buf2 : Buf) (m2 : MatView) : Buf ⊕ Buf :=
  if m1.rows = m2.rows ∧ m1.cols = m2.cols then
    .inr ((List.range (colIters m1)).foldl (fun b j =>
      (List.range m1.rows).foldl (fun b i =>
        b.update (m1.off + j * m1.ld + i)
          (b (m1.off + j * m1.ld + i) + buf2 (m2.off + j * m2.ld + i))) b) buf1)
  else .inl buf1

/-- `mat::add(m1, d)`: `*pp1++ += d` over the in-view elements. -/
def addD (buf1 : Buf) (m1 : MatView) (d : Scalar) : Buf :=
  (List.range (colIters m1)).foldl (fun b j =>
    (List.range m1.rows).foldl (fun b i =>
      b.update (m1.off + j * m1.ld + i) (b (m1.off + j * m1.ld + i) + d)) b) buf1

/-- `mat::sub(m1, m2)`: asserts equal dimensions, then `*pp1++ -= *pp2++`. -/
def subMM (buf1 : Buf) (m1 : MatView) (buf2 : Buf) (m2 : MatView) : Buf ⊕ Buf :=
  if m1.rows = m2.rows ∧ m1.cols = m2.cols then
    .inr ((List.range (colIters m1)).foldl (fun b j =>
      (List.range m1.rows).foldl (fun b i =>
        b.update (m1.off + j * m1.ld + i)
          (b (m1.off + j * m1.ld + i) - buf2 (m2.off + j * m2.ld + i))) b) buf1)
  else .inl buf1

/-- `mat::sub(m1, d)`: defined in the source as `add(m1, -1.0*d)`. -/
def subD (buf1 : Buf) (m1 : MatView) (d : Scalar) : Buf :=
  addD buf1 m1 (-1 * d)

/-- `mat::negate(m)`: `*pp = -*pp` over the in-view elements. -/
def negateM (buf : Buf) (m : MatView) : Buf :=
  (List.range (colIters m)).foldl (fun b j =>
    (List.range m.rows).foldl (fun b i =>
      b.update (m.off + j * m.ld + i) (-(b (m.off + j * m.ld + i)))) b) buf

/-- `mat::nrminf(m)`: starting from `0`, `if (fabs(*pp) > nrm) nrm = fabs(*pp)`
over the in-view elements. -/
def nrminf (buf : Buf) (m : MatView) : Scalar :=
  (List.range (colIters m)).foldl (fun nrm j =>
    (List.range m.rows).foldl (fun nrm i =>
      if |buf (m.off + j * m.ld + i)| > nrm then |buf (m.off + j * m.ld + i)| else nrm) nrm) 0

/-- `mat::isDiff(m1, m2, tol)`: asserts equal dimensions, then returns `true`
as soon as `fabs(*pp1++ - *pp2++) > tol` for some visited pair. -/
def isDiff (buf1 : Buf) (m1 : MatView) (buf2 : Buf) (m2 : MatView) (tol : Scalar) : Option Bool :=
  if m2.rows = m1.rows ∧ m2.cols = m1.cols then
    some ((List.range (colIters m1)).any fun j =>
      (List.range m1.rows).any fun i =>
        decide (|buf1 (m1.off + j * m1.ld + i) - buf2 (m2.off + j * m2.ld + i)| > tol))
  else none

/-- The in-view cells of a matrix-concept object: the offsets
`off + j*ld + i` with `j` below the column-loop count and `i < rows` — the
cells the strided traversals of `mat::add`, `mat::sub`, `mat::negate` and
`mat::nrminf` visit. -/
def inViewB (m : MatView) (n : Nat) : Bool :=
  (List.range (colIters m)).any fun j =>
    (List.range m.rows).any fun i => n = m.off + j * m.ld + i

/-- Read the final buffer out of a `Buf ⊕ Buf` result at cell `n`, whichever
way the call ended. -/
def resultAt (s : Buf ⊕ Buf) (n : Nat) : Scalar :=
  Sum.elim (fun b => b n) (fun b => b n) s

/-- The offsets of a whole-column / whole-block traversal: `off + j*ld + i`
for `j < C`, `i < R`. -/
def gridOffsets (off R C ld : Nat) : List Nat :=
  (List.range C).flatMap fun j => (List.range R).map fun i => off + j * ld + i

/-- The column-major data space of the matrix `[[1,2],[3,4]]` of the spec's
concrete example. -/
def bufC2 : Buf := fun n => ([1, 3, 2, 4] : List ℚ).getD n 0

/-- The fold of `std::swap`s over a list of offset pairs. -/
def swapFold (L : List (Nat × Nat)) (buf : Buf) : Buf :=
  L.foldl (fun b p => swapAt b p.1 p.2) buf

/-! ### Generic lemmas about `applyWrites` -/

theorem applyWrites_nil (buf : Buf) : applyWrites buf [] = buf := rfl

theorem applyWrites_cons (buf : Buf) (w : Nat × Scalar) (ws : List (Nat × Scalar)) :
    applyWrites buf (w :: ws) = applyWrites (buf.update w.1 w.2) ws := rfl

theorem applyWrites_append (buf : Buf) (ws₁ ws₂ : List (Nat × Scalar)) :
    applyWrites buf (ws₁ ++ ws₂) = applyWrites (applyWrites buf ws₁) ws₂ := by
  simp [applyWrites, List.foldl_append]

/-- A cell no write names is unchanged. -/
theorem applyWrites_not_mem (buf : Buf) (ws : List (Nat × Scalar)) (n : Nat)
    (h : ∀ w ∈ ws, w.1 ≠ n) : applyWrites buf ws n = buf n := by
  induction ws generalizing buf with
  | nil => rfl
  | cons w ws ih =>
    rw [applyWrites_cons, ih _ (fun w' hw' => h w' (List.mem_cons_of_mem _ hw'))]
    have hne : n ≠ w.1 := fun he => h w (List.mem_cons_self _ _) he.symm
    simp [Buf.update, hne]

/-- When the written offsets are pairwise distinct, a written cell holds the
value of its (unique) write. -/
theorem applyWrites_mem_nodup (buf : Buf) (ws : List (Nat × Scalar))
    (hnd : (ws.map Prod.fst).Nodup) (o : Nat) (v : Scalar) (hmem : (o, v) ∈ ws) :
    applyWrites buf ws o = v := by
  induction ws generalizing buf with
  | nil => exact absurd hmem (List.not_mem_nil _)
  | cons w ws ih =>
    rw [List.map_cons, List.nodup_cons] at hnd
    rw [applyWrites_cons]
    rcases List.mem_cons.mp hmem with h | h
    · have hw1 : w.1 = o := by rw [← h]
      have hw2 : w.2 = v := by rw [← h]
      rw [applyWrites_not_mem]
      · simp [Buf.update, hw1, hw2]
      · intro w' hw' he
        apply hnd.1
        rw [hw1, ← he]
        exact List.mem_map_of_mem Prod.fst hw'
    · exact ih _ hnd.2 h

/-- When every write carries the same value `v`, any written cell holds `v`
afterwards (repeated offsets are harmless). -/
theorem applyWrites_mem_const (buf : Buf) (ws : List (Nat × Scalar)) (v : Scalar)
    (hv : ∀ w ∈ ws, w.2 = v) (n : Nat) (hmem : n ∈ ws.map Prod.fst) :
    applyWrites buf ws n = v := by
  induction ws generalizing buf with
  | nil => exact absurd hmem (List.not_mem_nil _)
  | cons w ws ih =>
    rw [applyWrites_cons]
    by_cases h : n ∈ ws.map Prod.fst
    · exact ih _ (fun w' hw' => hv w' (List.mem_cons_of_mem _ hw')) h
    · have hn : n = w.1 := by
        rcases List.mem_map.mp hmem with ⟨w', hw', he⟩
        rcases List.mem_cons.mp hw' with h' | h'
        · rw [← he, h']
        · exact absurd (by rw [← he]; exact List.mem_map_of_mem Prod.fst h') h
      rw [applyWrites_not_mem _ _ _
        (fun w'' hw'' he' => h (by rw [← he']; exact List.mem_map_of_mem Prod.fst hw''))]
      simp [Buf.update, hn, hv w (List.mem_cons_self _ _)]

/-- Decomposition of column-major offsets: `i + j*ld` with `i < ld` determines
`i` and `j`. -/
theorem offset_inj {ld i j i' j' : Nat} (hi : i < ld) (hi' : i' < ld)
    (h : i + j * ld = i' + j' * ld) : i = i' ∧ j = j' := by
  have hmod : (i + j * ld) % ld = (i' + j' * ld) % ld := by rw [h]
  rw [Nat.add_mul_mod_self_right, Nat.add_mul_mod_self_right,
      Nat.mod_eq_of_lt hi, Nat.mod_eq_of_lt hi'] at hmod
  subst hmod
  refine ⟨rfl, ?_⟩
  have := Nat.add_left_cancel h
  exact Nat.eq_of_mul_eq_mul_right (Nat.lt_of_le_of_lt (Nat.zero_le i) hi) this

/-! ### Shared lemmas about the write patterns -/

theorem mem_gridOffsets {off R C ld n : Nat} :
    n ∈ gridOffsets off R C ld ↔ ∃ j, j < C ∧ ∃ i, i < R ∧ n = off + j * ld + i := by
  simp only [gridOffsets, List.mem_flatMap, List.mem_map, List.mem_range]
  constructor
  · rintro ⟨j, hj, i, hi, rfl⟩
    exact ⟨j, hj, i, hi, rfl⟩
  · rintro ⟨j, hj, i, hi, rfl⟩
    exact ⟨j, hj, i, hi, rfl⟩

theorem gridOffsets_nodup (off R C ld : Nat) (hR : R ≤ ld) :
    (gridOffsets off R C ld).Nodup := by
  rw [gridOffsets, List.nodup_flatMap]
  constructor
  · intro j _
    exact List.Nodup.map (fun i i' h => Nat.add_left_cancel h) (List.nodup_range R)
  · refine List.Nodup.pairwise_of_forall_ne (List.nodup_range C) ?_
    intro j _ j' _ hjj n hn hn'
    simp only [List.mem_map, List.mem_range] at hn hn'
    obtain ⟨i, hi, rfl⟩ := hn
    obtain ⟨i', hi', he⟩ := hn'
    have h2 : j' * ld + i' = j * ld + i := by
      apply Nat.add_left_cancel (n := off)
      rw [← Nat.add_assoc, ← Nat.add_assoc]
      exact he
    have h1 : i' + j' * ld = i + j * ld := by
      calc i' + j' * ld = j' * ld + i' := Nat.add_comm _ _
        _ = j * ld + i := h2
        _ = i + j * ld := Nat.add_comm _ _
    exact hjj ((offset_inj (Nat.lt_of_lt_of_le hi' hR) (Nat.lt_of_lt_of_le hi hR) h1).2.symm)

/-- The offsets of a block of grid writes. -/
theorem map_fst_gridWrites (off R C ld : Nat) (val : Nat → Nat → Scalar) :
    (((List.range C).flatMap fun j => (List.range R).map fun i =>
      (off + j * ld + i, val j i)).map Prod.fst) = gridOffsets off R C ld := by
  rw [gridOffsets, List.map_flatMap]
  simp only [List.map_map]
  rfl

/-- Element access at a column-major offset, written the way the copy loops
address it. -/
theorem elemOf_eq_buf (buf : Buf) (M : MatView) (i j : Nat) :
    elemOf buf M i j = buf (M.off + j * M.ld + i) :=
  congrArg buf (by rw [Nat.add_comm i (j * M.ld)]; exact (Nat.add_assoc _ _ _).symm)

/-- The `row_copy` loop runs exactly `cols` times whenever the start of the
row lies inside the first column (`row_src < ld`), in particular for any
valid matrix object (`row_src < rows ≤ ld`). -/
theorem rowCopyIters_eq (src : MatView) (row_src : Nat) (h : row_src < src.ld) :
    rowCopyIters src row_src = src.cols := by
  have hld : 0 < src.ld := Nat.lt_of_le_of_lt (Nat.zero_le _) h
  rw [rowCopyIters, if_neg (Nat.pos_iff_ne_zero.mp hld)]
  rcases Nat.eq_zero_or_pos src.cols with hc | hc
  · rw [hc]
    exact Nat.div_eq_of_lt (by omega)
  · have hle : src.ld ≤ src.cols * src.ld := Nat.le_mul_of_pos_left src.ld hc
    have harith : ∀ m, src.ld ≤ m →
        m - row_src + src.ld - 1 = (src.ld - row_src - 1) + m := by
      intro m hm; omega
    rw [harith _ hle, Nat.add_mul_div_right _ _ hld, Nat.div_eq_of_lt (by omega), Nat.zero_add]

/-- Membership of a grid write in its own block. -/
theorem gridWrite_mem {R C : Nat} (off ld : Nat) (val : Nat → Nat → Scalar)
    {i j : Nat} (hi : i < R) (hj : j < C) :
    (off + j * ld + i, val j i) ∈
      ((List.range C).flatMap fun j => (List.range R).map fun i =>
        (off + j * ld + i, val j i)) := by
  simp only [List.mem_flatMap, List.mem_map, List.mem_range]
  exact ⟨j, hj, i, hi, rfl⟩

/-- C4: assignment of a matrix-concept value into an owning `Matrix` succeeds
exactly on equal dimensions; on success the destination holds the source
element-wise (`dest(i,j) == src(i,j)`), on a dimension mismatch the call fails
with the destination untouched. -/
theorem c4_matrix_assign :
    (∀ (R C : Nat) (dbuf sbuf : Buf) (src : MatView), R = src.rows → C = src.cols →
      ∃ buf', assignMC dbuf (matrixOf R C) sbuf src = .inr buf' ∧
        ∀ i, i < R → ∀ j, j < C →
          elemOf buf' (matrixOf R C) i j = elemOf sbuf src i j) ∧
    (∀ (R C : Nat) (dbuf sbuf : Buf) (src : MatView), ¬ (R = src.rows ∧ C = src.cols) →
      assignMC dbuf (matrixOf R C) sbuf src = .inl dbuf) := by
  constructor
  · intro R C dbuf sbuf src hr hc
    refine ⟨applyWrites dbuf (assignWrites (matrixOf R C) sbuf src), ?_, ?_⟩
    · rw [assignMC, if_pos ⟨hr, hc⟩]
    · intro i hi j hj
      rw [elemOf_eq_buf, elemOf_eq_buf]
      have hmem := gridWrite_mem (R := R) (C := C) 0 R
        (fun j i => sbuf (src.off + j * src.ld + i)) hi hj
      have hnd : ((assignWrites (matrixOf R C) sbuf src).map Prod.fst).Nodup := by
        rw [assignWrites]
        rw [map_fst_gridWrites (matrixOf R C).off (matrixOf R C).rows
          (matrixOf R C).cols (matrixOf R C).ld]
        exact gridOffsets_nodup _ _ _ _ (le_refl _)
      exact applyWrites_mem_nodup _ _ hnd _ _ hmem
  · intro R C dbuf sbuf src h
    rw [assignMC]
    exact if_neg h

/-- C4 witness: a concrete successful assignment and a concrete dimension
mismatch. -/
theorem c4_matrix_assign_witness :
    (∃ buf', assignMC bufZero (matrixOf 2 2) bufNat (matrixOf 2 2) = .inr buf' ∧
      ∀ i, i < 2 → ∀ j, j < 2 →
        elemOf buf' (matrixOf 2 2) i j = elemOf bufNat (matrixOf 2 2) i j) ∧
    assignMC bufZero (matrixOf 1 2) bufNat (matrixOf 2 2) = .inl bufZero :=
  ⟨c4_matrix_assign.1 2 2 bufZero bufNat (matrixOf 2 2) rfl rfl,
   c4_matrix_assign.2 1 2 bufZero bufNat (matrixOf 2 2) (by decide)⟩

/-- C5: `setAll(v)` on a view over a parent `Matrix` writes `v` to exactly the
in-view elements — visible immediately through the parent's own accessor —
and leaves every parent element outside the viewed block unchanged. -/
theorem c5_setAll_view (R C ro co r c : Nat) (buf : Buf) (v : Scalar)
    (hok : subViewOK (matrixOf R C) ro co r c) :
    (∀ i, i < r → ∀ j, j < c →
      elemOf (setAllView buf (subView (matrixOf R C) ro co r c) v) (matrixOf R C)
        (ro + i) (co + j) = v) ∧
    (∀ p q, p < R → q < C → ¬ (ro ≤ p ∧ p < ro + r ∧ co ≤ q ∧ q < co + c) →
      elemOf (setAllView buf (subView (matrixOf R C) ro co r c) v) (matrixOf R C) p q
        = elemOf buf (matrixOf R C) p q) := by
  obtain ⟨hro, hrr, hco, hcc⟩ := hok
  simp only [matrixOf] at hro hrr hco hcc
  have hR0 : 0 < R := Nat.lt_of_le_of_lt (Nat.zero_le _) hro
  have hiters : colIters (subView (matrixOf R C) ro co r c) = c := by
    rw [colIters, subView, if_neg]
    exact Nat.pos_iff_ne_zero.mp hR0
  constructor
  · intro i hi j hj
    rw [elemOf_eq_buf]
    apply applyWrites_mem_const _ _ v
    · intro w hw
      rw [setAllWrites] at hw
      simp only [List.mem_flatMap, List.mem_map, List.mem_range] at hw
      obtain ⟨_, _, _, _, rfl⟩ := hw
      rfl
    · rw [setAllWrites, map_fst_gridWrites, mem_gridOffsets]
      refine ⟨j, ?_, i, ?_, ?_⟩
      · rw [hiters]; exact hj
      · exact hi
      · show (matrixOf R C).off + (co + j) * (matrixOf R C).ld + (ro + i)
          = (subView (matrixOf R C) ro co r c).off + j * (subView (matrixOf R C) ro co r c).ld + i
        show 0 + (co + j) * R + (ro + i) = 0 + ro + co * R + j * R + i
        ring
  · intro p q hp hq hout
    rw [elemOf_eq_buf, elemOf_eq_buf]
    apply applyWrites_not_mem
    intro w hw he
    rw [setAllWrites] at hw
    simp only [List.mem_flatMap, List.mem_map, List.mem_range] at hw
    obtain ⟨j, hj, i, hi, rfl⟩ := hw
    rw [hiters] at hj
    simp only [subView, matrixOf, Nat.zero_add] at hi he
    have harith : (ro + i) + (co + j) * R = p + q * R := by
      rw [Nat.add_mul]
      omega
    have hlt : ro + i < R := by omega
    obtain ⟨h1, h2⟩ := offset_inj hlt hp harith
    exact hout (by omega)

/-- C5 witness: a 2×2 view at offset (1,1) of a 4×4 matrix, filled with 7:
parent cell (1,1) becomes 7, parent cell (0,0) keeps its value. -/
theorem c5_setAll_view_witness :
    elemOf (setAllView bufNat (subView (matrixOf 4 4) 1 1 2 2) 7) (matrixOf 4 4) (1 + 0) (1 + 0) = 7
    ∧ elemOf (setAllView bufNat (subView (matrixOf 4 4) 1 1 2 2) 7) (matrixOf 4 4) 0 0
        = elemOf bufNat (matrixOf 4 4) 0 0 :=
  ⟨(c5_setAll_view 4 4 1 1 2 2 bufNat 7 (by decide)).1 0 (by decide) 0 (by decide),
   (c5_setAll_view 4 4 1 1 2 2 bufNat 7 (by decide)).2 0 0 (by decide) (by decide) (by decide)⟩

/-! ### Failure behaviour of the guarded calls -/

theorem assignMC_inl (dbuf : Buf) (dest : MatView) (sbuf : Buf) (src : MatView) (r : Buf)
    (h : assignMC dbuf dest sbuf src = .inl r) : r = dbuf := by
  rw [assignMC] at h
  split at h
  · exact Sum.noConfusion h
  · injection h with h'
    exact h'.symm

theorem reorderColumnsByVectors_inl (abuf : Buf) (a : MatView) (vToCols : List Nat)
    (bbuf : Buf) (b : MatView) (vcols : List Nat) (r : Buf)
    (h : reorderColumnsByVectors abuf a vToCols bbuf b vcols = .inl r) : r = abuf := by
  rw [reorderColumnsByVectors] at h
  split_ifs at h
  all_goals first
    | (exact assignMC_inl _ _ _ _ _ h)
    | (injection h with h'; exact h'.symm)
    | (exact Sum.noConfusion h)

theorem reorderRowsByVectors_inl (abuf : Buf) (a : MatView) (vToRows : List Nat)
    (bbuf : Buf) (b : MatView) (vrows : List Nat) (r : Buf)
    (h : reorderRowsByVectors abuf a vToRows bbuf b vrows = .inl r) : r = abuf := by
  rw [reorderRowsByVectors] at h
  split_ifs at h
  all_goals first
    | (exact assignMC_inl _ _ _ _ _ h)
    | (injection h with h'; exact h'.symm)
    | (exact Sum.noConfusion h)

theorem assignByVectors_inl (abuf : Buf) (a : MatView) (vToRows vToCols : List Nat)
    (bbuf : Buf) (b : MatView) (vrows vcols : List Nat) (r : Buf)
    (h : assignByVectors abuf a vToRows vToCols bbuf b vrows vcols = .inl r) : r = abuf := by
  rw [assignByVectors] at h
  by_cases c1 : vToRows = [] ∧ vToCols = [] ∧ vrows = [] ∧ vcols = []
  · rw [if_pos c1] at h
    exact assignMC_inl _ _ _ _ _ h
  · rw [if_neg c1] at h
    by_cases c2 : vToRows = [] ∧ vrows = []
    · rw [if_pos c2] at h
      exact reorderColumnsByVectors_inl _ _ _ _ _ _ _ h
    · rw [if_neg c2] at h
      by_cases c3 : vToCols = [] ∧ vcols = []
      · rw [if_pos c3] at h
        exact reorderRowsByVectors_inl _ _ _ _ _ _ _ h
      · rw [if_neg c3] at h
        by_cases c4 : ¬ (vToRows.all fun r => r < a.rows)
        · rw [if_pos c4] at h
          injection h with h'
          exact h'.symm
        · rw [if_neg c4] at h
          by_cases c5 : ¬ ((expand vToRows a.rows).length ≤ a.rows)
          · rw [if_pos c5] at h
            injection h with h'
            exact h'.symm
          · rw [if_neg c5] at h
            by_cases c6 : ¬ (vToCols.all fun c => c < a.cols)
            · rw [if_pos c6] at h
              injection h with h'
              exact h'.symm
            · rw [if_neg c6] at h
              by_cases c7 : ¬ ((expand vToCols a.cols).length ≤ a.cols)
              · rw [if_pos c7] at h
                injection h with h'
                exact h'.symm
              · rw [if_neg c7] at h
                by_cases c8 : ¬ (vrows.all fun r => r < b.rows)
                · rw [if_pos c8] at h
                  injection h with h'
                  exact h'.symm
                · rw [if_neg c8] at h
                  by_cases c9 : ¬ ((expand vrows b.rows).length ≤ b.rows)
                  · rw [if_pos c9] at h
                    injection h with h'
                    exact h'.symm
                  · rw [if_neg c9] at h
                    by_cases c10 : ¬ (vcols.all fun c => c < b.cols)
                    · rw [if_pos c10] at h
                      injection h with h'
                      exact h'.symm
                    · rw [if_neg c10] at h
                      by_cases c11 : ¬ ((expand vcols b.cols).length ≤ b.cols)
                      · rw [if_pos c11] at h
                        injection h with h'
                        exact h'.symm
                      · rw [if_neg c11] at h
                        by_cases c12 : ¬ ((expand vToRows a.rows).length = (expand vrows b.rows).length
                            ∧ (expand vToCols a.cols).length = (expand vcols b.cols).length
                            ∧ 0 < (expand vrows b.rows).length * (expand vcols b.cols).length)
                        · rw [if_pos c12] at h
                          injection h with h'
                          exact h'.symm
                        · rw [if_neg c12] at h
                          exact Sum.noConfusion h

/-- An out-of-range destination column index aborts `reorderColumnsByVectors`
before any write. -/
theorem reorderColumnsByVectors_oob_toCols (abuf : Buf) (a : MatView) (vToCols : List Nat)
    (bbuf : Buf) (b : MatView) (vcols : List Nat)
    (hoob : ∃ k ∈ vToCols, a.cols ≤ k) :
    reorderColumnsByVectors abuf a vToCols bbuf b vcols = .inl abuf := by
  obtain ⟨k, hk, hge⟩ := hoob
  have hne : ¬ (vToCols = [] ∧ vcols = []) := by
    rintro ⟨h1, -⟩
    rw [h1] at hk
    exact List.not_mem_nil _ hk
  have hnall : ¬ (vToCols.all fun c => c < a.cols) = true := by
    intro hall
    exact absurd (of_decide_eq_true (List.all_eq_true.mp hall k hk)) (Nat.not_lt.mpr hge)
  rw [reorderColumnsByVectors]
  split_ifs with h1 h2 h3 h4 h5 h6 h7
  all_goals first
    | rfl
    | (exact absurd h2 hne)
    | (exact absurd h3 hnall)
    | (exact absurd h4 hnall)
    | (exact absurd h5 hnall)

/-- An out-of-range destination row index aborts `reorderRowsByVectors`
before any write. -/
theorem reorderRowsByVectors_oob_toRows (abuf : Buf) (a : MatView) (vToRows : List Nat)
    (bbuf : Buf) (b : MatView) (vrows : List Nat)
    (hoob : ∃ k ∈ vToRows, a.rows ≤ k) :
    reorderRowsByVectors abuf a vToRows bbuf b vrows = .inl abuf := by
  obtain ⟨k, hk, hge⟩ := hoob
  have hne : ¬ (vToRows = [] ∧ vrows = []) := by
    rintro ⟨h1, -⟩
    rw [h1] at hk
    exact List.not_mem_nil _ hk
  have hnall : ¬ (vToRows.all fun rr => rr < a.rows) = true := by
    intro hall
    exact absurd (of_decide_eq_true (List.all_eq_true.mp hall k hk)) (Nat.not_lt.mpr hge)
  rw [reorderRowsByVectors]
  split_ifs with h1 h2 h3 h4 h5 h6 h7
  all_goals first
    | rfl
    | (exact absurd h2 hne)
    | (exact absurd h3 hnall)
    | (exact absurd h4 hnall)
    | (exact absurd h5 hnall)

/-- A row-count mismatch aborts `reorderColumnsByVectors` at its first
assert. -/
theorem reorderColumnsByVectors_rows_ne (abuf : Buf) (a : MatView) (vToCols : List Nat)
    (bbuf : Buf) (b : MatView) (vcols : List Nat) (hne : ¬ (b.rows = a.rows)) :
    reorderColumnsByVectors abuf a vToCols bbuf b vcols = .inl abuf := by
  rw [reorderColumnsByVectors, if_pos hne]

/-- A cardinality mismatch of the (expanded) row index lists aborts
`reorderRowsByVectors` before any write. -/
theorem reorderRowsByVectors_len_ne (abuf : Buf) (a : MatView) (vToRows : List Nat)
    (bbuf : Buf) (b : MatView) (vrows : List Nat)
    (hlen : (expand vToRows a.rows).length ≠ (expand vrows b.rows).length)
    (hne : ¬ (vToRows = [] ∧ vrows = [])) :
    reorderRowsByVectors abuf a vToRows bbuf b vrows = .inl abuf := by
  rw [reorderRowsByVectors]
  split_ifs with h1 h2 h3 h4 h5 h6 h7
  all_goals first
    | rfl
    | (exact absurd h2 hne)
    | (exact absurd h3.1 hlen)
    | (exact absurd h4.1 hlen)
    | (exact absurd h5.1 hlen)
    | (exact absurd h6.1 hlen)
    | (exact absurd h7.1 hlen)

/-- C6: precondition violations abort the offending call with the destination
untouched, never clamping anything into range: a non-square operand to
in-place transpose, a dimension mismatch in assignment, an out-of-range index
(on either axis) and a mismatched cardinality of the expanded index lists in
`assignByVectors` each yield the failure result carrying the unchanged
buffer. -/
theorem c6_fail_fast :
    (∀ (buf : Buf) (m : MatView), m.rows ≠ m.cols → transposeIP buf m = .inl buf) ∧
    (∀ (dbuf : Buf) (dest : MatView) (sbuf : Buf) (src : MatView),
      ¬ (dest.rows = src.rows ∧ dest.cols = src.cols) →
      assignMC dbuf dest sbuf src = .inl dbuf) ∧
    (∀ (abuf : Buf) (a : MatView) (vToRows vToCols : List Nat)
       (bbuf : Buf) (b : MatView) (vrows vcols : List Nat),
      (∃ k ∈ vToRows, a.rows ≤ k) →
      assignByVectors abuf a vToRows vToCols bbuf b vrows vcols = .inl abuf) ∧
    (∀ (abuf : Buf) (a : MatView) (vToRows vToCols : List Nat)
       (bbuf : Buf) (b : MatView) (vrows vcols : List Nat),
      (∃ k ∈ vToCols, a.cols ≤ k) →
      assignByVectors abuf a vToRows vToCols bbuf b vrows vcols = .inl abuf) ∧
    (∀ (abuf : Buf) (a : MatView) (vToRows vToCols : List Nat)
       (bbuf : Buf) (b : MatView) (vrows vcols : List Nat),
      (expand vToRows a.rows).length ≠ (expand vrows b.rows).length →
      assignByVectors abuf a vToRows vToCols bbuf b vrows vcols = .inl abuf) := by
  refine ⟨?_, ?_, ?_, ?_, ?_⟩
  · intro buf m h
    rw [transposeIP, if_neg h]
  · intro dbuf dest sbuf src h
    rw [assignMC]
    exact if_neg h
  · intro abuf a vToRows vToCols bbuf b vrows vcols hoob
    obtain ⟨k, hk, hge⟩ := hoob
    have hne : vToRows ≠ [] := by
      intro h1
      rw [h1] at hk
      exact List.not_mem_nil _ hk
    have hnall : ¬ (vToRows.all fun rr => rr < a.rows) = true := by
      intro hall
      exact absurd (of_decide_eq_true (List.all_eq_true.mp hall k hk)) (Nat.not_lt.mpr hge)
    have hc1 : ¬ (vToRows = [] ∧ vToCols = [] ∧ vrows = [] ∧ vcols = []) := fun hc => hne hc.1
    have hc2 : ¬ (vToRows = [] ∧ vrows = []) := fun hc => hne hc.1
    rw [assignByVectors, if_neg hc1, if_neg hc2]
    by_cases c3 : vToCols = [] ∧ vcols = []
    · rw [if_pos c3]
      exact reorderRowsByVectors_oob_toRows _ _ _ _ _ _ ⟨k, hk, hge⟩
    · rw [if_neg c3, if_pos hnall]
  · intro abuf a vToRows vToCols bbuf b vrows vcols hoob
    obtain ⟨k, hk, hge⟩ := hoob
    have hne : vToCols ≠ [] := by
      intro h1
      rw [h1] at hk
      exact List.not_mem_nil _ hk
    have hnall : ¬ (vToCols.all fun c => c < a.cols) = true := by
      intro hall
      exact absurd (of_decide_eq_true (List.all_eq_true.mp hall k hk)) (Nat.not_lt.mpr hge)
    have hc1 : ¬ (vToRows = [] ∧ vToCols = [] ∧ vrows = [] ∧ vcols = []) := fun hc => hne hc.2.1
    rw [assignByVectors, if_neg hc1]
    by_cases c2 : vToRows = [] ∧ vrows = []
    · rw [if_pos c2]
      exact reorderColumnsByVectors_oob_toCols _ _ _ _ _ _ ⟨k, hk, hge⟩
    · have hc3 : ¬ (vToCols = [] ∧ vcols = []) := fun hc => hne hc.1
      rw [if_neg c2, if_neg hc3]
      by_cases c4 : ¬ (vToRows.all fun r => r < a.rows)
      · rw [if_pos c4]
      · rw [if_neg c4]
        by_cases c5 : ¬ ((expand vToRows a.rows).length ≤ a.rows)
        · rw [if_pos c5]
        · rw [if_neg c5, if_pos hnall]
  · intro abuf a vToRows vToCols bbuf b vrows vcols hlen
    rw [assignByVectors]
    by_cases c1 : vToRows = [] ∧ vToCols = [] ∧ vrows = [] ∧ vcols = []
    · rw [if_pos c1, assignMC]
      refine if_neg ?_
      rintro ⟨hr, -⟩
      refine hlen ?_
      rw [c1.1, c1.2.2.1]
      rw [expand, if_pos rfl, expand, if_pos rfl, List.length_range, List.length_range, hr]
    · rw [if_neg c1]
      by_cases c2 : vToRows = [] ∧ vrows = []
      · rw [if_pos c2]
        refine reorderColumnsByVectors_rows_ne _ _ _ _ _ _ (fun he => hlen ?_)
        rw [c2.1, c2.2]
        rw [expand, if_pos rfl, expand, if_pos rfl, List.length_range, List.length_range, he]
      · rw [if_neg c2]
        by_cases c3 : vToCols = [] ∧ vcols = []
        · rw [if_pos c3]
          exact reorderRowsByVectors_len_ne _ _ _ _ _ _ hlen c2
        · rw [if_neg c3]
          by_cases c4 : ¬ (vToRows.all fun r => r < a.rows)
          · rw [if_pos c4]
          · rw [if_neg c4]
            by_cases c5 : ¬ ((expand vToRows a.rows).length ≤ a.rows)
            · rw [if_pos c5]
            · rw [if_neg c5]
              by_cases c6 : ¬ (vToCols.all fun c => c < a.cols)
              · rw [if_pos c6]
              · rw [if_neg c6]
                by_cases c7 : ¬ ((expand vToCols a.cols).length ≤ a.cols)
                · rw [if_pos c7]
                · rw [if_neg c7]
                  by_cases c8 : ¬ (vrows.all fun r => r < b.rows)
                  · rw [if_pos c8]
                  · rw [if_neg c8]
                    by_cases c9 : ¬ ((expand vrows b.rows).length ≤ b.rows)
                    · rw [if_pos c9]
                    · rw [if_neg c9]
                      by_cases c10 : ¬ (vcols.all fun c => c < b.cols)
                      · rw [if_pos c10]
                      · rw [if_neg c10]
                        by_cases c11 : ¬ ((expand vcols b.cols).length ≤ b.cols)
                        · rw [if_pos c11]
                        · rw [if_neg c11]
                          rw [if_pos (fun hc => hlen hc.1)]

/-- C6 witness: concrete aborted calls — a 2×3 in-place transpose, a 1×1 ← 2×1
assignment, an out-of-range row index `2` and column index `5` on a 2×2
matrix, and row index lists of lengths 1 and 2. -/
theorem c6_fail_fast_witness :
    transposeIP bufNat (matrixOf 2 3) = .inl bufNat
    ∧ assignMC bufZero (matrixOf 1 1) bufNat (matrixOf 2 1) = .inl bufZero
    ∧ assignByVectors bufZero (matrixOf 2 2) [2] [0] bufNat (matrixOf 2 2) [0] [0] = .inl bufZero
    ∧ assignByVectors bufZero (matrixOf 2 2) [0] [5] bufNat (matrixOf 2 2) [0] [0] = .inl bufZero
    ∧ assignByVectors bufZero (matrixOf 2 2) [0] [0] bufNat (matrixOf 2 2) [0, 1] [0]
        = .inl bufZero :=
  ⟨c6_fail_fast.1 bufNat (matrixOf 2 3) (by decide),
   c6_fail_fast.2.1 bufZero (matrixOf 1 1) bufNat (matrixOf 2 1) (by decide),
   c6_fail_fast.2.2.1 bufZero (matrixOf 2 2) [2] [0] bufNat (matrixOf 2 2) [0] [0] (by decide),
   c6_fail_fast.2.2.2.1 bufZero (matrixOf 2 2) [0] [5] bufNat (matrixOf 2 2) [0] [0] (by decide),
   c6_fail_fast.2.2.2.2 bufZero (matrixOf 2 2) [0] [0] bufNat (matrixOf 2 2) [0, 1] [0] (by decide)⟩

/-- C9: in each of `reorderColumnsByVectors`, `reorderRowsByVectors` and
`assignByVectors`, every cardinality and bounds check precedes the first
write to the destination (in the source, the asserts all come before the
copy loops), so a failing call leaves the destination's contents exactly as
they were. -/
theorem c9_checks_before_writes :
    (∀ (abuf : Buf) (a : MatView) (vToCols : List Nat) (bbuf : Buf) (b : MatView)
       (vcols : List Nat) (r : Buf),
      reorderColumnsByVectors abuf a vToCols bbuf b vcols = .inl r → r = abuf) ∧
    (∀ (abuf : Buf) (a : MatView) (vToRows : List Nat) (bbuf : Buf) (b : MatView)
       (vrows : List Nat) (r : Buf),
      reorderRowsByVectors abuf a vToRows bbuf b vrows = .inl r → r = abuf) ∧
    (∀ (abuf : Buf) (a : MatView) (vToRows vToCols : List Nat) (bbuf : Buf) (b : MatView)
       (vrows vcols : List Nat) (r : Buf),
      assignByVectors abuf a vToRows vToCols bbuf b vrows vcols = .inl r → r = abuf) :=
  ⟨reorderColumnsByVectors_inl, reorderRowsByVectors_inl, assignByVectors_inl⟩

/-- C9 witness: three concrete failing calls (row-count mismatch, column-count
mismatch, out-of-range row index) whose failure value is the untouched
destination buffer. -/
theorem c9_checks_before_writes_witness :
    (reorderColumnsByVectors bufZero (matrixOf 1 2) [] bufNat (matrixOf 2 2) [] = .inl bufZero
      ∧ bufZero = bufZero)
    ∧ (reorderRowsByVectors bufZero (matrixOf 2 1) [] bufNat (matrixOf 2 2) [] = .inl bufZero
      ∧ bufZero = bufZero)
    ∧ (assignByVectors bufZero (matrixOf 2 2) [5] [] bufNat (matrixOf 2 2) [0] [] = .inl bufZero
      ∧ bufZero = bufZero) :=
  ⟨⟨rfl, c9_checks_before_writes.1 bufZero (matrixOf 1 2) [] bufNat (matrixOf 2 2) [] bufZero rfl⟩,
   ⟨rfl, c9_checks_before_writes.2.1 bufZero (matrixOf 2 1) [] bufNat (matrixOf 2 2) [] bufZero rfl⟩,
   ⟨rfl, c9_checks_before_writes.2.2 bufZero (matrixOf 2 2) [5] [] bufNat (matrixOf 2 2) [0] []
      bufZero rfl⟩⟩

/-! ### The out-of-view frame of the strided traversals -/

theorem not_inView (m : MatView) (n : Nat) (h : inViewB m n = false) :
    ∀ j, j < colIters m → ∀ i, i < m.rows → m.off + j * m.ld + i ≠ n := by
  intro j hj i hi he
  rw [inViewB, List.any_eq_false] at h
  have h2 := Bool.eq_false_iff.mpr (h _ (List.mem_range.mpr hj))
  rw [List.any_eq_false] at h2
  exact h2 _ (List.mem_range.mpr hi) (decide_eq_true he.symm)

theorem inView_mem (m : MatView) (j i : Nat) (hj : j < colIters m) (hi : i < m.rows) :
    inViewB m (m.off + j * m.ld + i) = true := by
  rw [inViewB]
  simp only [List.any_eq_true, List.mem_range, decide_eq_true_eq]
  exact ⟨j, hj, i, hi, rfl⟩

/-- A fold of in-place updates leaves untouched cells unchanged. -/
theorem foldl_update_frame {α : Type} (L : List α) (g : α → Nat) (f : Buf → α → Scalar)
    (buf : Buf) (n : Nat) (h : ∀ x ∈ L, g x ≠ n) :
    (L.foldl (fun b x => b.update (g x) (f b x)) buf) n = buf n := by
  induction L generalizing buf with
  | nil => rfl
  | cons x L ih =>
    rw [List.foldl_cons, ih _ (fun y hy => h y (List.mem_cons_of_mem _ hy))]
    have hne : n ≠ g x := fun he => h x (List.mem_cons_self _ _) he.symm
    simp [Buf.update, hne]

/-- A fold of buffer transformers each of which preserves cell `n` preserves
cell `n`. -/
theorem foldl_step_frame {α : Type} (L : List α) (S : Buf → α → Buf) (buf : Buf) (n : Nat)
    (h : ∀ b x, x ∈ L → S b x n = b n) :
    (L.foldl S buf) n = buf n := by
  induction L generalizing buf with
  | nil => rfl
  | cons x L ih =>
    rw [List.foldl_cons, ih _ (fun b y hy => h b y (List.mem_cons_of_mem _ hy))]
    exact h buf x (List.mem_cons_self _ _)

/-- C10: the element-wise operations (`add` in both forms, `sub` in both
forms, `negate`, `nrminf`) step column-by-column by the leading dimension and
touch exactly `rows` cells per column: on a view whose `ld` exceeds `rows`
they leave every cell outside the `rows*cols` in-view block unchanged, and
`nrminf` depends only on the in-view cells. -/
theorem c10_strided_traversal :
    (∀ (buf1 : Buf) (m1 : MatView) (buf2 : Buf) (m2 : MatView) (n : Nat),
      inViewB m1 n = false → resultAt (addMM buf1 m1 buf2 m2) n = buf1 n) ∧
    (∀ (buf1 : Buf) (m1 : MatView) (d : Scalar) (n : Nat),
      inViewB m1 n = false → addD buf1 m1 d n = buf1 n) ∧
    (∀ (buf1 : Buf) (m1 : MatView) (buf2 : Buf) (m2 : MatView) (n : Nat),
      inViewB m1 n = false → resultAt (subMM buf1 m1 buf2 m2) n = buf1 n) ∧
    (∀ (buf1 : Buf) (m1 : MatView) (d : Scalar) (n : Nat),
      inViewB m1 n = false → subD buf1 m1 d n = buf1 n) ∧
    (∀ (buf : Buf) (m : MatView) (n : Nat),
      inViewB m n = false → negateM buf m n = buf n) ∧
    (∀ (buf buf' : Buf) (m : MatView),
      (∀ n, inViewB m n = true → buf n = buf' n) → nrminf buf m = nrminf buf' m) := by
  have hmain : ∀ (m1 : MatView) (f : Buf → Nat → Nat → Scalar) (buf1 : Buf) (n : Nat),
      inViewB m1 n = false →
      ((List.range (colIters m1)).foldl (fun b j =>
        (List.range m1.rows).foldl (fun b i =>
          b.update (m1.off + j * m1.ld + i) (f b j i)) b) buf1) n = buf1 n := by
    intro m1 f buf1 n hn
    apply foldl_step_frame
    intro b j hj
    rw [List.mem_range] at hj
    exact foldl_update_frame _ _ _ _ _
      (fun i hi => not_inView m1 n hn j hj i (List.mem_range.mp hi))
  refine ⟨?_, ?_, ?_, ?_, ?_, ?_⟩
  · intro buf1 m1 buf2 m2 n hn
    rw [addMM]
    split
    · exact hmain m1 (fun b j i => b (m1.off + j * m1.ld + i) + buf2 (m2.off + j * m2.ld + i))
        buf1 n hn
    · rfl
  · intro buf1 m1 d n hn
    exact hmain m1 (fun b j i => b (m1.off + j * m1.ld + i) + d) buf1 n hn
  · intro buf1 m1 buf2 m2 n hn
    rw [subMM]
    split
    · exact hmain m1 (fun b j i => b (m1.off + j * m1.ld + i) - buf2 (m2.off + j * m2.ld + i))
        buf1 n hn
    · rfl
  · intro buf1 m1 d n hn
    exact hmain m1 (fun b j i => b (m1.off + j * m1.ld + i) + -1 * d) buf1 n hn
  · intro buf m n hn
    exact hmain m (fun b j i => -(b (m.off + j * m.ld + i))) buf n hn
  · intro buf buf' m h
    rw [nrminf, nrminf]
    apply List.foldl_ext
    intro acc j hj
    apply List.foldl_ext
    intro acc' i hi
    rw [List.mem_range] at hj hi
    rw [h _ (inView_mem m j i hj hi)]

/-- C10 witness: on the 2×2 view with `ld = 3` over a 3×2 matrix, the padding
cell at offset 2 survives `add`, `sub`, `negate` untouched, and `nrminf` is
blind to cells outside the view. -/
theorem c10_strided_traversal_witness :
    inViewB (subView (matrixOf 3 2) 0 0 2 2) 2 = false
    ∧ resultAt (addMM bufNat (subView (matrixOf 3 2) 0 0 2 2)
        bufNat (subView (matrixOf 3 2) 0 0 2 2)) 2 = bufNat 2
    ∧ addD bufNat (subView (matrixOf 3 2) 0 0 2 2) 5 2 = bufNat 2
    ∧ resultAt (subMM bufNat (subView (matrixOf 3 2) 0 0 2 2)
        bufNat (subView (matrixOf 3 2) 0 0 2 2)) 2 = bufNat 2
    ∧ subD bufNat (subView (matrixOf 3 2) 0 0 2 2) 5 2 = bufNat 2
    ∧ negateM bufNat (subView (matrixOf 3 2) 0 0 2 2) 2 = bufNat 2
    ∧ nrminf bufNat (subView (matrixOf 3 2) 0 0 2 2)
        = nrminf bufNat (subView (matrixOf 3 2) 0 0 2 2) :=
  ⟨by decide,
   c10_strided_traversal.1 bufNat _ bufNat _ 2 (by decide),
   c10_strided_traversal.2.1 bufNat _ 5 2 (by decide),
   c10_strided_traversal.2.2.1 bufNat _ bufNat _ 2 (by decide),
   c10_strided_traversal.2.2.2.1 bufNat _ 5 2 (by decide),
   c10_strided_traversal.2.2.2.2.1 bufNat _ 2 (by decide),
   c10_strided_traversal.2.2.2.2.2 bufNat bufNat _ (fun n _ => rfl)⟩

/-- C8: `isDiff(M1, M2, tol)` (dimensions must match, else the call fails)
returns `true` iff some corresponding pair of elements differs by more than
`tol` in absolute value; and `isDiff(M, M, 0)` is `false`. -/
theorem c8_isDiff (buf1 buf2 : Buf) (m1 m2 : MatView) (tol : Scalar)
    (hr : m2.rows = m1.rows) (hc : m2.cols = m1.cols) (hld : 0 < m1.ld) :
    (isDiff buf1 m1 buf2 m2 tol = some true ↔
      ∃ i, i < m1.rows ∧ ∃ j, j < m1.cols ∧
        tol < |elemOf buf1 m1 i j - elemOf buf2 m2 i j|) ∧
    isDiff buf1 m1 buf1 m1 0 = some false := by
  constructor
  · rw [isDiff, if_pos ⟨hr, hc⟩]
    rw [Option.some.injEq]
    simp only [List.any_eq_true, List.mem_range, decide_eq_true_eq, gt_iff_lt]
    rw [colIters, if_neg (Nat.pos_iff_ne_zero.mp hld)]
    constructor
    · rintro ⟨j, hj, i, hi, hlt⟩
      refine ⟨i, hi, j, hj, ?_⟩
      rw [elemOf_eq_buf, elemOf_eq_buf]
      exact hlt
    · rintro ⟨i, hi, j, hj, hlt⟩
      refine ⟨j, hj, i, hi, ?_⟩
      rw [elemOf_eq_buf, elemOf_eq_buf] at hlt
      exact hlt
  · rw [isDiff, if_pos ⟨rfl, rfl⟩]
    simp

/-- C8 witness: on 2×2 matrices, `isDiff` of the counting matrix against the
zero matrix at tolerance 0 matches the element-wise characterization, and
`isDiff(M, M, 0)` is `false`. -/
theorem c8_isDiff_witness :
    (isDiff bufNat (matrixOf 2 2) bufZero (matrixOf 2 2) 0 = some true ↔
      ∃ i, i < (matrixOf 2 2).rows ∧ ∃ j, j < (matrixOf 2 2).cols ∧
        (0:ℚ) < |elemOf bufNat (matrixOf 2 2) i j - elemOf bufZero (matrixOf 2 2) i j|) ∧
    isDiff bufNat (matrixOf 2 2) bufNat (matrixOf 2 2) 0 = some false :=
  c8_isDiff bufNat bufZero (matrixOf 2 2) (matrixOf 2 2) 0 rfl rfl (by decide)

/-! ### The fancy-indexing success paths -/

/-- Element access written with the offset associated the way the row-copy
loop emits it. -/
theorem elemOf_eq_buf2 (buf : Buf) (M : MatView) (i j : Nat) :
    elemOf buf M i j = buf (M.off + i + j * M.ld) :=
  congrArg buf (Nat.add_assoc _ _ _).symm

theorem rowCopyWrites_nodup (sbuf : Buf) (src : MatView) (row_src : Nat)
    (dest : MatView) (row_dest : Nat) (h : 0 < dest.ld) :
    ((rowCopyWrites sbuf src row_src dest row_dest).map Prod.fst).Nodup := by
  rw [rowCopyWrites, List.map_map]
  refine List.Nodup.map ?_ (List.nodup_range _)
  intro k k' he
  have he' : dest.off + row_dest + k * dest.ld = dest.off + row_dest + k' * dest.ld := he
  exact Nat.eq_of_mul_eq_mul_right h (Nat.add_left_cancel he')

/-- C2: `assignByVectors(dest, [1,0], [], src, [0,1], [])` on 2-row `dest` and
`src` of equal column count succeeds and writes row 0 of `src` into row 1 of
`dest` and row 1 of `src` into row 0 of `dest`, with every column position
intact. -/
theorem c2_assignByVectors_swap (abuf bbuf : Buf) (a b : MatView)
    (har : a.rows = 2) (hbr : b.rows = 2) (hcc : b.cols = a.cols)
    (hald : 2 ≤ a.ld) (hbld : 2 ≤ b.ld) :
    ∃ buf', assignByVectors abuf a [1, 0] [] bbuf b [0, 1] [] = .inr buf' ∧
      ∀ j, j < a.cols →
        elemOf buf' a 0 j = elemOf bbuf b 1 j ∧ elemOf buf' a 1 j = elemOf bbuf b 0 j := by
  have hald0 : 0 < a.ld := lt_of_lt_of_le (by norm_num) hald
  have hbld0 : 0 < b.ld := lt_of_lt_of_le (by norm_num) hbld
  have hd1 : ¬ (([1, 0] : List Nat) = [] ∧ ([] : List Nat) = []
      ∧ ([0, 1] : List Nat) = [] ∧ ([] : List Nat) = []) := by simp
  have hd2 : ¬ (([1, 0] : List Nat) = [] ∧ ([0, 1] : List Nat) = []) := by simp
  rw [assignByVectors, if_neg hd1, if_neg hd2, if_pos ⟨rfl, rfl⟩]
  have hall1 : (List.all [1, 0] fun r => r < a.rows) = true := by rw [har]; decide
  have hlen1 : (expand [1, 0] a.rows).length ≤ a.rows := by rw [har]; decide
  have hall2 : (List.all [0, 1] fun r => r < b.rows) = true := by rw [hbr]; decide
  have hlen2 : (expand [0, 1] b.rows).length ≤ b.rows := by rw [hbr]; decide
  have hcard : (expand [1, 0] a.rows).length = (expand [0, 1] b.rows).length
      ∧ 0 < (expand [0, 1] b.rows).length := by rw [har, hbr]; exact ⟨rfl, by decide⟩
  rw [reorderRowsByVectors, if_neg (not_not_intro hcc), if_neg hd2,
      if_neg (not_not_intro hall1), if_neg (not_not_intro hlen1),
      if_neg (not_not_intro hall2), if_neg (not_not_intro hlen2),
      if_neg (not_not_intro hcard)]
  refine ⟨_, rfl, ?_⟩
  intro j hj
  have hjb : j < b.cols := lt_of_lt_of_eq hj hcc.symm
  have hW : ((List.range (expand [0, 1] b.rows).length).flatMap fun i =>
      rowCopyWrites bbuf b ((expand [0, 1] b.rows).getD i 0) a ((expand [1, 0] a.rows).getD i 0))
      = rowCopyWrites bbuf b 0 a 1 ++ rowCopyWrites bbuf b 1 a 0 := by
    show ((List.range 2).flatMap fun i =>
      rowCopyWrites bbuf b (([0, 1] : List Nat).getD i 0) a (([1, 0] : List Nat).getD i 0)) = _
    rw [show List.range 2 = [0, 1] from rfl]
    simp only [List.flatMap_cons, List.flatMap_nil, List.append_nil]
    rfl
  rw [hW, applyWrites_append]
  constructor
  · rw [elemOf_eq_buf2, elemOf_eq_buf2]
    apply applyWrites_mem_nodup _ _ (rowCopyWrites_nodup bbuf b 1 a 0 hald0)
    rw [rowCopyWrites]
    refine List.mem_map.mpr ⟨j, List.mem_range.mpr ?_, rfl⟩
    rw [rowCopyIters_eq b 1 (lt_of_lt_of_le (by norm_num) hbld)]
    exact hjb
  · rw [elemOf_eq_buf2, elemOf_eq_buf2]
    rw [applyWrites_not_mem]
    · apply applyWrites_mem_nodup _ _ (rowCopyWrites_nodup bbuf b 0 a 1 hald0)
      rw [rowCopyWrites]
      refine List.mem_map.mpr ⟨j, List.mem_range.mpr ?_, rfl⟩
      rw [rowCopyIters_eq b 0 hbld0]
      exact hjb
    · intro w hw he
      rw [rowCopyWrites] at hw
      obtain ⟨k, hk, rfl⟩ := List.mem_map.mp hw
      have h0 : (0 : Nat) + k * a.ld = 1 + j * a.ld := by omega
      exact absurd (offset_inj (lt_of_lt_of_le (by norm_num) hald)
        (lt_of_lt_of_le (by norm_num) hald) h0).1 (by norm_num)

/-- C2 witness: the spec's concrete example — `src = [[1,2],[3,4]]` (stored
column-major as `1,3,2,4`), swapped into a 2×2 destination. -/
theorem c2_assignByVectors_swap_witness :
    (∃ buf', assignByVectors bufZero (matrixOf 2 2) [1, 0] [] bufC2 (matrixOf 2 2) [0, 1] []
        = .inr buf' ∧
      ∀ j, j < (matrixOf 2 2).cols →
        elemOf buf' (matrixOf 2 2) 0 j = elemOf bufC2 (matrixOf 2 2) 1 j
        ∧ elemOf buf' (matrixOf 2 2) 1 j = elemOf bufC2 (matrixOf 2 2) 0 j) ∧
    elemOf bufC2 (matrixOf 2 2) 0 0 = 1 ∧ elemOf bufC2 (matrixOf 2 2) 0 1 = 2
    ∧ elemOf bufC2 (matrixOf 2 2) 1 0 = 3 ∧ elemOf bufC2 (matrixOf 2 2) 1 1 = 4 :=
  ⟨c2_assignByVectors_swap bufZero bufC2 (matrixOf 2 2) (matrixOf 2 2)
      rfl rfl rfl (by decide) (by decide),
   by decide, by decide, by decide, by decide⟩

theorem colCopyWrites_nodup (sbuf : Buf) (src : MatView) (col_src : Nat)
    (dest : MatView) (col_dest : Nat) :
    ((colCopyWrites sbuf src col_src dest col_dest).map Prod.fst).Nodup := by
  rw [colCopyWrites, List.map_map]
  refine List.Nodup.map ?_ (List.nodup_range _)
  intro i i' he
  have he' : dest.off + col_dest * dest.ld + i = dest.off + col_dest * dest.ld + i' := he
  exact Nat.add_left_cancel he'

/-- An out-of-range source column index aborts `reorderColumnsByVectors`
before any write. -/
theorem reorderColumnsByVectors_oob_cols (abuf : Buf) (a : MatView) (vToCols : List Nat)
    (bbuf : Buf) (b : MatView) (vcols : List Nat)
    (hoob : ∃ k ∈ vcols, b.cols ≤ k) :
    reorderColumnsByVectors abuf a vToCols bbuf b vcols = .inl abuf := by
  obtain ⟨k, hk, hge⟩ := hoob
  have hne : vcols ≠ [] := by
    intro h1
    rw [h1] at hk
    exact List.not_mem_nil _ hk
  have hnall : ¬ (vcols.all fun c => c < b.cols) = true := by
    intro hall
    exact absurd (of_decide_eq_true (List.all_eq_true.mp hall k hk)) (Nat.not_lt.mpr hge)
  rw [reorderColumnsByVectors]
  by_cases c1 : ¬ (b.rows = a.rows)
  · rw [if_pos c1]
  · rw [if_neg c1, if_neg (fun hc => hne hc.2)]
    by_cases c3 : ¬ (vToCols.all fun c => c < a.cols)
    · rw [if_pos c3]
    · rw [if_neg c3]
      by_cases c4 : ¬ ((expand vToCols a.cols).length ≤ a.cols)
      · rw [if_pos c4]
      · rw [if_neg c4, if_pos hnall]

/-- A cardinality mismatch of the (expanded) column index lists aborts
`reorderColumnsByVectors` before any write. -/
theorem reorderColumnsByVectors_len_ne (abuf : Buf) (a : MatView) (vToCols : List Nat)
    (bbuf : Buf) (b : MatView) (vcols : List Nat)
    (hlen : (expand vToCols a.cols).length ≠ (expand vcols b.cols).length) :
    reorderColumnsByVectors abuf a vToCols bbuf b vcols = .inl abuf := by
  rw [reorderColumnsByVectors]
  by_cases c1 : ¬ (b.rows = a.rows)
  · rw [if_pos c1]
  · rw [if_neg c1]
    by_cases c2 : vToCols = [] ∧ vcols = []
    · rw [if_pos c2, assignMC]
      refine if_neg ?_
      rintro ⟨-, hcols⟩
      refine hlen ?_
      rw [c2.1, c2.2, expand, if_pos rfl, expand, if_pos rfl,
          List.length_range, List.length_range, hcols]
    · rw [if_neg c2]
      by_cases c3 : ¬ (vToCols.all fun c => c < a.cols)
      · rw [if_pos c3]
      · rw [if_neg c3]
        by_cases c4 : ¬ ((expand vToCols a.cols).length ≤ a.cols)
        · rw [if_pos c4]
        · rw [if_neg c4]
          by_cases c5 : ¬ (vcols.all fun c => c < b.cols)
          · rw [if_pos c5]
          · rw [if_neg c5]
            by_cases c6 : ¬ ((expand vcols b.cols).length ≤ b.cols)
            · rw [if_pos c6]
            · rw [if_neg c6, if_pos (fun hc => hlen hc.1)]

/-- C1 (counterexample): with `dest` of 2 columns, `destCols = [0,1,0]`,
`src` of 3 columns, `srcCols = [0,1,2]` and one row on each side, the
expanded lists have equal length 3 and every index is in bounds for its own
matrix, yet the call fails (the source also requires each explicit list to be
no longer than its own side's column count, here `3 <= 2` fails). -/
theorem c1_length_cap_counterexample :
    ((matrixOf 1 3).rows = (matrixOf 1 2).rows
      ∧ (expand [0, 1, 0] (matrixOf 1 2).cols).length
          = (expand [0, 1, 2] (matrixOf 1 3).cols).length
      ∧ (∀ c ∈ ([0, 1, 0] : List Nat), c < (matrixOf 1 2).cols)
      ∧ (∀ c ∈ ([0, 1, 2] : List Nat), c < (matrixOf 1 3).cols))
    ∧ reorderColumnsByVectors bufZero (matrixOf 1 2) [0, 1, 0] bufNat (matrixOf 1 3) [0, 1, 2]
        = .inl bufZero :=
  ⟨by decide, rfl⟩

/-- C1 (amended): when at least one index list is non-empty, an empty list
expands to the full `0..count-1` range of its own side; the call succeeds
when the expanded lists have equal length, every index is in bounds, and
additionally each explicitly-given list is no longer than its own side's
column count (`dest.rows == src.rows` and, for a valid destination object,
`rows <= ld` are preconditions); then for every `k` below the common length,
source column `srcCols[k]` (all rows) is copied into destination column
`destCols[k]` — sequentially, so for every `k` whose destination index does
not recur later the final destination column `destCols[k]` equals source
column `srcCols[k]`.  If the expanded lengths differ or any index is out of
range, the call fails with the destination untouched. -/
theorem c1_reorderColumnsByVectors_spec :
    (∀ (abuf bbuf : Buf) (a b : MatView) (vToCols vcols : List Nat),
      vToCols ≠ [] ∨ vcols ≠ [] →
      b.rows = a.rows → a.rows ≤ a.ld →
      (∀ c ∈ vToCols, c < a.cols) → (∀ c ∈ vcols, c < b.cols) →
      vToCols.length ≤ a.cols → vcols.length ≤ b.cols →
      (expand vToCols a.cols).length = (expand vcols b.cols).length →
      ∃ buf', reorderColumnsByVectors abuf a vToCols bbuf b vcols = .inr buf' ∧
        ∀ k, k < (expand vcols b.cols).length →
          (∀ k', k < k' → k' < (expand vToCols a.cols).length →
            (expand vToCols a.cols).getD k' 0 ≠ (expand vToCols a.cols).getD k 0) →
          ∀ i, i < b.rows →
            elemOf buf' a i ((expand vToCols a.cols).getD k 0)
              = elemOf bbuf b i ((expand vcols b.cols).getD k 0)) ∧
    (∀ (abuf bbuf : Buf) (a b : MatView) (vToCols vcols : List Nat),
      ((expand vToCols a.cols).length ≠ (expand vcols b.cols).length
        ∨ (∃ c ∈ vToCols, a.cols ≤ c) ∨ (∃ c ∈ vcols, b.cols ≤ c)) →
      reorderColumnsByVectors abuf a vToCols bbuf b vcols = .inl abuf) := by
  constructor
  · intro abuf bbuf a b vToCols vcols hne hrows hldra hbda hbsb hcapa hcapb hlen
    have hg2 : ¬ (vToCols = [] ∧ vcols = []) :=
      fun hc => hne.elim (fun h => h hc.1) (fun h => h hc.2)
    have hg3 : (vToCols.all fun c => c < a.cols) = true :=
      List.all_eq_true.mpr (fun c hc => decide_eq_true (hbda c hc))
    have hg4 : (expand vToCols a.cols).length ≤ a.cols := by
      rw [expand]
      split
      · simp
      · exact hcapa
    have hg5 : (vcols.all fun c => c < b.cols) = true :=
      List.all_eq_true.mpr (fun c hc => decide_eq_true (hbsb c hc))
    have hg6 : (expand vcols b.cols).length ≤ b.cols := by
      rw [expand]
      split
      · simp
      · exact hcapb
    have hpos : 0 < (expand vcols b.cols).length := by
      by_cases hv : vcols = []
      · rcases hne with hne1 | hne2
        · rw [← hlen, expand, if_neg hne1]
          exact List.length_pos.mpr hne1
        · exact absurd hv hne2
      · rw [expand, if_neg hv]
        exact List.length_pos.mpr hv
    rw [reorderColumnsByVectors, if_neg (not_not_intro hrows), if_neg hg2,
        if_neg (not_not_intro hg3), if_neg (not_not_intro hg4),
        if_neg (not_not_intro hg5), if_neg (not_not_intro hg6),
        if_neg (not_not_intro ⟨hlen, hpos⟩)]
    refine ⟨_, rfl, ?_⟩
    intro k hk hlast i hi
    rw [elemOf_eq_buf, elemOf_eq_buf]
    have hia : i < a.ld := lt_of_lt_of_le (hrows ▸ hi) hldra
    have hm : (expand vcols b.cols).length = (k + 1) + ((expand vcols b.cols).length - (k + 1)) := by
      omega
    rw [hm, List.range_add, List.flatMap_append, applyWrites_append, applyWrites_not_mem]
    · rw [List.range_succ, List.flatMap_append, applyWrites_append]
      rw [show ([k] : List Nat).flatMap (fun k => colCopyWrites bbuf b
            ((expand vcols b.cols).getD k 0) a ((expand vToCols a.cols).getD k 0))
          = colCopyWrites bbuf b ((expand vcols b.cols).getD k 0) a
            ((expand vToCols a.cols).getD k 0) ++ [] from rfl, List.append_nil]
      apply applyWrites_mem_nodup _ _ (colCopyWrites_nodup bbuf b _ a _)
      rw [colCopyWrites]
      exact List.mem_map.mpr ⟨i, List.mem_range.mpr hi, rfl⟩
    · intro w hw he
      rw [List.mem_flatMap] at hw
      obtain ⟨k', hk', hwmem⟩ := hw
      obtain ⟨t, ht, rfl⟩ := List.mem_map.mp hk'
      rw [List.mem_range] at ht
      rw [colCopyWrites] at hwmem
      obtain ⟨i', hi', rfl⟩ := List.mem_map.mp hwmem
      rw [List.mem_range] at hi'
      have hia' : i' < a.ld := lt_of_lt_of_le (hrows ▸ hi') hldra
      have hne' := hlast (k + 1 + t) (by omega) (by rw [hlen]; omega)
      have harith : i' + ((expand vToCols a.cols).getD (k + 1 + t) 0) * a.ld
          = i + ((expand vToCols a.cols).getD k 0) * a.ld := by omega
      exact hne' (offset_inj hia' hia harith).2
  · intro abuf bbuf a b vToCols vcols hfail
    rcases hfail with h | h | h
    · exact reorderColumnsByVectors_len_ne _ _ _ _ _ _ h
    · exact reorderColumnsByVectors_oob_toCols _ _ _ _ _ _ h
    · exact reorderColumnsByVectors_oob_cols _ _ _ _ _ _ h

/-- C1 witness: a successful reorder (dest `2×3`, `destCols = [2,0]`, src
`2×2`, `srcCols = ":"`) and a failing one (expanded lengths 1 and 2). -/
theorem c1_reorderColumnsByVectors_spec_witness :
    (∃ buf', reorderColumnsByVectors bufZero (matrixOf 2 3) [2, 0] bufNat (matrixOf 2 2) []
        = .inr buf' ∧
      ∀ k, k < (expand [] (matrixOf 2 2).cols).length →
        (∀ k', k < k' → k' < (expand [2, 0] (matrixOf 2 3).cols).length →
          (expand [2, 0] (matrixOf 2 3).cols).getD k' 0
            ≠ (expand [2, 0] (matrixOf 2 3).cols).getD k 0) →
        ∀ i, i < (matrixOf 2 2).rows →
          elemOf buf' (matrixOf 2 3) i ((expand [2, 0] (matrixOf 2 3).cols).getD k 0)
            = elemOf bufNat (matrixOf 2 2) i ((expand [] (matrixOf 2 2).cols).getD k 0))
    ∧ reorderColumnsByVectors bufZero (matrixOf 1 2) [0] bufNat (matrixOf 1 3) [0, 1]
        = .inl bufZero :=
  ⟨c1_reorderColumnsByVectors_spec.1 bufZero bufNat (matrixOf 2 3) (matrixOf 2 2) [2, 0] []
      (Or.inl (by decide)) rfl (by decide) (by decide) (by decide) (by decide) (by decide)
      (by decide),
   c1_reorderColumnsByVectors_spec.2 bufZero bufNat (matrixOf 1 2) (matrixOf 1 3) [0] [0, 1]
      (Or.inl (by decide))⟩

/-! ### In-place transposition -/

theorem swapAt_swapAt (b : Buf) (k l : Nat) : swapAt (swapAt b k l) k l = b := by
  funext n
  simp only [swapAt]
  split_ifs with h1 h2 <;> simp_all

theorem swapAt_comm_single (b : Buf) (k l k' l' : Nat)
    (h1 : k ≠ k') (h2 : k ≠ l') (h3 : l ≠ k') (h4 : l ≠ l') :
    swapAt (swapAt b k l) k' l' = swapAt (swapAt b k' l') k l := by
  funext n
  simp only [swapAt]
  split_ifs <;> simp_all

/-- A swap of cells no later pair touches moves past the fold. -/
theorem swapFold_comm (L : List (Nat × Nat)) (k l : Nat) (buf : Buf)
    (h : ∀ p ∈ L, p.1 ≠ k ∧ p.1 ≠ l ∧ p.2 ≠ k ∧ p.2 ≠ l) :
    swapFold L (swapAt buf k l) = swapAt (swapFold L buf) k l := by
  induction L generalizing buf with
  | nil => rfl
  | cons p L ih =>
    obtain ⟨hp1, hp2, hp3, hp4⟩ := h p (List.mem_cons_self _ _)
    show swapFold L (swapAt (swapAt buf k l) p.1 p.2) = swapAt (swapFold L (swapAt buf p.1 p.2)) k l
    rw [swapAt_comm_single buf k l p.1 p.2 hp1.symm hp3.symm hp2.symm hp4.symm]
    exact ih _ (fun q hq => h q (List.mem_cons_of_mem _ hq))

/-- A fold of swaps over pairwise-disjoint cell pairs is an involution. -/
theorem swapFold_swapFold (L : List (Nat × Nat)) (buf : Buf)
    (hnd : (L.flatMap fun p => [p.1, p.2]).Nodup) :
    swapFold L (swapFold L buf) = buf := by
  induction L generalizing buf with
  | nil => rfl
  | cons p L ih =>
    rw [List.flatMap_cons, List.nodup_append] at hnd
    obtain ⟨-, hndL, hdisj⟩ := hnd
    have hdisj' : ∀ q ∈ L, q.1 ≠ p.1 ∧ q.1 ≠ p.2 ∧ q.2 ≠ p.1 ∧ q.2 ≠ p.2 := by
      intro q hq
      have hq1 : q.1 ∈ L.flatMap fun p => [p.1, p.2] :=
        List.mem_flatMap.mpr ⟨q, hq, List.mem_cons_self _ _⟩
      have hq2 : q.2 ∈ L.flatMap fun p => [p.1, p.2] :=
        List.mem_flatMap.mpr ⟨q, hq, List.mem_cons_of_mem _ (List.mem_singleton.mpr rfl)⟩
      have hd1 : p.1 ∉ L.flatMap fun p => [p.1, p.2] :=
        fun hc => hdisj (List.mem_cons_self _ _) hc
      have hd2 : p.2 ∉ L.flatMap fun p => [p.1, p.2] :=
        fun hc => hdisj (List.mem_cons_of_mem _ (List.mem_singleton.mpr rfl)) hc
      exact ⟨fun he => hd1 (he ▸ hq1), fun he => hd2 (he ▸ hq1),
             fun he => hd1 (he ▸ hq2), fun he => hd2 (he ▸ hq2)⟩
    show swapFold L (swapAt (swapFold L (swapAt buf p.1 p.2)) p.1 p.2) = buf
    rw [swapFold_comm L p.1 p.2 (swapFold L (swapAt buf p.1 p.2)) hdisj']
    rw [ih _ hndL, swapAt_swapAt]

theorem mem_transposePairs {n : Nat} {p : Nat × Nat} (h : p ∈ transposePairs n) :
    p.2 < p.1 ∧ p.1 < n := by
  rw [transposePairs] at h
  simp only [List.mem_flatMap, List.mem_map, List.mem_range] at h
  obtain ⟨i, hi, j, hj, rfl⟩ := h
  exact ⟨hj, hi⟩

theorem transposePairs_nodup (n : Nat) : (transposePairs n).Nodup := by
  rw [transposePairs, List.nodup_flatMap]
  constructor
  · intro i _
    refine List.Nodup.map ?_ (List.nodup_range _)
    intro j j' h
    exact ((Prod.mk.injEq _ _ _ _).mp h).2
  · refine List.Nodup.pairwise_of_forall_ne (List.nodup_range n) ?_
    intro i _ i' _ hii q hq hq'
    obtain ⟨j, -, rfl⟩ := List.mem_map.mp hq
    obtain ⟨j', -, he⟩ := List.mem_map.mp hq'
    exact hii ((Prod.mk.injEq _ _ _ _).mp he).1.symm

/-- With `rows <= ld` (true of every valid matrix object), the cells the
transpose loop swaps are pairwise disjoint. -/
theorem transposeOffsets_nodup (m : MatView) (hld : m.rows ≤ m.ld) :
    ((transposePairs m.rows).flatMap fun p =>
      [m.off + (p.1 + p.2 * m.ld), m.off + (p.2 + p.1 * m.ld)]).Nodup := by
  rw [List.nodup_flatMap]
  constructor
  · intro p hp
    obtain ⟨hji, hin⟩ := mem_transposePairs hp
    refine List.nodup_cons.mpr ⟨?_, List.nodup_singleton _⟩
    intro hmem
    rw [List.mem_singleton] at hmem
    have h2 : p.1 + p.2 * m.ld = p.2 + p.1 * m.ld := Nat.add_left_cancel hmem
    have hp1 : p.1 < m.ld := lt_of_lt_of_le hin hld
    have hp2 : p.2 < m.ld := lt_of_lt_of_le (lt_trans hji hin) hld
    exact absurd (offset_inj hp1 hp2 h2).1 (Nat.ne_of_gt hji)
  · refine List.Nodup.pairwise_of_forall_ne (transposePairs_nodup _) ?_
    intro p hp q hq hpq x hx hx'
    obtain ⟨hj, hi⟩ := mem_transposePairs hp
    obtain ⟨hj', hi'⟩ := mem_transposePairs hq
    have hp1 : p.1 < m.ld := lt_of_lt_of_le hi hld
    have hp2 : p.2 < m.ld := lt_of_lt_of_le (lt_trans hj hi) hld
    have hq1 : q.1 < m.ld := lt_of_lt_of_le hi' hld
    have hq2 : q.2 < m.ld := lt_of_lt_of_le (lt_trans hj' hi') hld
    rcases List.mem_cons.mp hx with h1 | h1 <;>
      rcases List.mem_cons.mp hx' with h2 | h2
    · have he := Nat.add_left_cancel (h1.symm.trans h2)
      obtain ⟨e1, e2⟩ := offset_inj hp1 hq1 he
      exact hpq (Prod.ext e1 e2)
    · rw [List.mem_singleton] at h2
      have he := Nat.add_left_cancel (h1.symm.trans h2)
      obtain ⟨e1, e2⟩ := offset_inj hp1 hq2 he
      omega
    · rw [List.mem_singleton] at h1
      have he := Nat.add_left_cancel (h1.symm.trans h2)
      obtain ⟨e1, e2⟩ := offset_inj hp2 hq1 he
      omega
    · rw [List.mem_singleton] at h1
      rw [List.mem_singleton] at h2
      have he := Nat.add_left_cancel (h1.symm.trans h2)
      obtain ⟨e1, e2⟩ := offset_inj hp2 hq2 he
      exact hpq (Prod.ext e2 e1)

/-- C7: for every square matrix object (with the valid-object property
`rows <= ld`), applying the in-place transpose twice restores exactly the
original contents. -/
theorem c7_transpose_involution (buf : Buf) (m : MatView)
    (hsq : m.rows = m.cols) (hld : m.rows ≤ m.ld) :
    ∃ buf', transposeIP buf m = .inr buf' ∧ transposeIP buf' m = .inr buf := by
  have hfold : ∀ b : Buf, transposeIP b m
      = .inr (swapFold ((transposePairs m.rows).map fun p =>
          (m.off + (p.1 + p.2 * m.ld), m.off + (p.2 + p.1 * m.ld))) b) := by
    intro b
    rw [transposeIP, if_pos hsq, swapFold, List.foldl_map]
  refine ⟨_, hfold buf, ?_⟩
  rw [hfold]
  congr 1
  have hnd : ((((transposePairs m.rows).map fun p =>
      (m.off + (p.1 + p.2 * m.ld), m.off + (p.2 + p.1 * m.ld))).flatMap
        fun q => [q.1, q.2])).Nodup := by
    rw [List.flatMap_map]
    exact transposeOffsets_nodup m hld
  exact swapFold_swapFold _ _ hnd

/-- C7 witness: the in-place transpose applied twice on the 2×2 counting
matrix. -/
theorem c7_transpose_involution_witness :
    ∃ buf', transposeIP bufNat (matrixOf 2 2) = .inr buf'
      ∧ transposeIP buf' (matrixOf 2 2) = .inr bufNat :=
  c7_transpose_involution bufNat (matrixOf 2 2) rfl (by decide)

/-- C3 (counterexample): on the 4×4 matrix with `M(i,j) = i + 4j`, the view
over rows `{1,2}`, columns `{0,1,2}` (the six-element `2×3` sub-block of the
claim)
does NOT read back `{1,5,9,2,6,10}` in column-major order; the column-major
enumeration is `{1,2,5,6,9,10}`. -/
theorem c3_colmajor_counterexample :
    (∀ i < 4, ∀ j < 4, elemOf bufNat (matrixOf 4 4) i j = ((i + 4*j : ℕ) : ℚ))
    ∧ subViewOK (matrixOf 4 4) 1 0 2 3
    ∧ colMajorElems bufNat (subView (matrixOf 4 4) 1 0 2 3) ≠ [1, 5, 9, 2, 6, 10] := by
  decide

/-- C3 (amended): the view over rows `{1,2}`, columns `{0,1,2}` of the 4×4
matrix with `M(i,j) = i + 4j` reads back `{1,5,9,2,6,10}` when its six
elements are enumerated in row-major order; its column-major enumeration is
`{1,2,5,6,9,10}`. -/
theorem c3_view_readback :
    (∀ i < 4, ∀ j < 4, elemOf bufNat (matrixOf 4 4) i j = ((i + 4*j : ℕ) : ℚ))
    ∧ subViewOK (matrixOf 4 4) 1 0 2 3
    ∧ rowMajorElems bufNat (subView (matrixOf 4 4) 1 0 2 3) = [1, 5, 9, 2, 6, 10]
    ∧ colMajorElems bufNat (subView (matrixOf 4 4) 1 0 2 3) = [1, 2, 5, 6, 9, 10] := by
  decide

end Dynare
